import Mathlib

set_option maxRecDepth 100000

/-!
Verification of the packet-plane core of `tsproto` (`src/tsproto/src/algorithms.rs`
and `src/tsproto/src/connectionmanager.rs`) against its specification.

Bytes are modelled as natural numbers (`ℕ`); byte strings as `List ℕ`.  External
cryptographic primitives (SHA-1/SHA-256/SHA-512 digests, the EAX cipher, the
QuickLZ compressor, ECDH shared-secret computation) are imported by the Rust code
as black boxes, so they appear here as function parameters of the operations
that consume them.
-/

namespace Tsproto

/-- The packet types of `packets.rs`, the closed variant set used by
`algorithms.rs` (`PacketType`). -/
inductive PacketType where
  | Voice
  | VoiceWhisper
  | Command
  | CommandLow
  | Ping
  | Pong
  | Ack
  | AckLow
  | Init
deriving DecidableEq, Repr

/-- Modelled from the spec: `PacketType::is_voice` lives in `packets.rs`, which is
not under `src/`; per §4.1 the voice classes are `Voice` and `VoiceWhisper`. -/
def PacketType.is_voice : PacketType → Bool
  | .Voice => true
  | .VoiceWhisper => true
  | _ => false

/-- `must_encrypt` from `algorithms.rs`: true exactly on `Command`/`CommandLow`. -/
def must_encrypt : PacketType → Bool
  | .Command => true
  | .CommandLow => true
  | .Voice => false
  | .Ack => false
  | .AckLow => false
  | .VoiceWhisper => false
  | .Ping => false
  | .Pong => false
  | .Init => false

/-- `should_encrypt` from `algorithms.rs`. -/
def should_encrypt (t : PacketType) (voice_encryption : Bool) : Bool :=
  must_encrypt t || t == PacketType.Ack || t == PacketType.AckLow
    || (voice_encryption && t.is_voice)

/-- The packet header record used by `algorithms.rs` (declared in `packets.rs`):
8-byte MAC, 16-bit packet id `p_id`, optional 16-bit client id `c_id`, and the
type+flags byte `p_type`. -/
structure Header where
  mac : List ℕ
  p_id : ℕ
  c_id : Option ℕ
  p_type : ℕ
deriving DecidableEq, Repr

/-- Modelled from the spec: `Header::write_meta` lives in `packets.rs`, not under
`src/`; per §4.1/§6 it emits `p_id` big-endian, then `c_id` big-endian when
present, then the `p_type` byte (5 bytes client side, 3 server side). -/
def Header.write_meta (h : Header) : List ℕ :=
  [h.p_id / 256 % 256, h.p_id % 256] ++
    (match h.c_id with
     | some c => [c / 256 % 256, c % 256]
     | none => []) ++ [h.p_type]

/-- The output header produced by `compress_and_split`: `Header::default()` with
the packet type set, plus the two flags the function may set.  The flag setters
(`set_compressed`, `set_fragmented`) live in `packets.rs`, not under `src/`, and
are modelled from the spec as boolean fields. -/
structure FragHeader where
  typ : PacketType
  compressed : Bool
  fragmented : Bool
deriving DecidableEq, Repr

/-- The `while` loop of `compress_and_split`'s split phase: repeatedly
`split_off(len - max_size)` from the back while the buffer is nonempty, pushing
each removed chunk.  The fuel argument bounds the iteration count; with
`fuel ≥ data.length` and `0 < max_size` it never runs out. -/
def splitFullChunks : ℕ → ℕ → List ℕ → List (List ℕ)
  | 0, _, _ => []
  | fuel + 1, max_size, data =>
    if data.length = 0 then []
    else
      data.drop (data.length - max_size) ::
        splitFullChunks fuel max_size (data.take (data.length - max_size))

/-- The split phase of `compress_and_split`: first push the residual
`data.split_off(len - (len % max_size))`, then the full-size chunks from the
back.  Pieces are produced back-to-front; the caller reverses them. -/
def splitPieces (max_size : ℕ) (data : List ℕ) : List (List ℕ) :=
  data.drop (data.length - data.length % max_size) ::
    splitFullChunks data.length max_size
      (data.take (data.length - data.length % max_size))

/-- The maximum body size of `compress_and_split`: `500 - header_size` with
`header_size` 13 for the client and 11 for the server. -/
def body_budget (is_client : Bool) : ℕ := 500 - (if is_client then 13 else 11)

/-- `compress_and_split` from `algorithms.rs`.  `compress` stands for
`quicklz::compress(·, CompressionLevel::Lvl1)` (an external crate), `typ` for
`packet.header.get_type()`, and `data` for the serialized packet body.
`body_budget is_client` is the source's `max_size = 500 - header_size`. -/
def compress_and_split (compress : List ℕ → List ℕ) (is_client : Bool)
    (typ : PacketType) (data : List ℕ) : List (FragHeader × List ℕ) :=
  let max_size : ℕ := body_budget is_client
  let dc : List (List ℕ) × Bool :=
    if max_size - 100 < data.length then
      let cdata := compress data
      let dc2 : List ℕ × Bool :=
        if data.length < cdata.length then (data, false) else (cdata, true)
      if dc2.1.length ≤ max_size ∨ typ = PacketType.VoiceWhisper then
        ([dc2.1], dc2.2)
      else
        (splitPieces max_size dc2.1, dc2.2)
    else ([data], false)
  let len := dc.1.length
  let fragmented := decide (1 < len)
  dc.1.reverse.enum.map fun p =>
    (⟨typ, decide (p.1 = 0) && dc.2,
      fragmented && (decide (p.1 = 0) || decide (p.1 = len - 1))⟩, p.2)

/-- The (possibly compressed) body that `compress_and_split` actually emits:
compression is attempted above the `body_budget - 100` threshold and kept unless
the compressed form is strictly larger. -/
def effectiveBody (compress : List ℕ → List ℕ) (is_client : Bool)
    (data : List ℕ) : List ℕ :=
  if body_budget is_client - 100 < data.length then
    if data.length < (compress data).length then data else compress data
  else data

/-- Whether `compress_and_split` retains the compressed form: the body is above
the compression threshold and the compressed form is not strictly larger. -/
def retainedB (compress : List ℕ → List ℕ) (is_client : Bool)
    (data : List ℕ) : Bool :=
  decide (body_budget is_client - 100 < data.length) &&
    !decide (data.length < (compress data).length)

/-- The fragment bodies of `compress_and_split` in wire order. -/
def wirePieces (compress : List ℕ → List ℕ) (is_client : Bool)
    (typ : PacketType) (data : List ℕ) : List (List ℕ) :=
  let body := effectiveBody compress is_client data
  if body.length ≤ body_budget is_client ∨ typ = PacketType.VoiceWhisper then
    [body]
  else (splitPieces (body_budget is_client) body).reverse

theorem effectiveBody_eq_ite (compress : List ℕ → List ℕ) (is_client : Bool)
    (data : List ℕ) :
    effectiveBody compress is_client data =
      if retainedB compress is_client data then compress data else data := by
  unfold effectiveBody retainedB
  by_cases h1 : body_budget is_client - 100 < data.length <;>
    by_cases h2 : data.length < (compress data).length <;>
    simp [h1, h2]

theorem splitFullChunks_spec (max : ℕ) (hmax : 0 < max) :
    ∀ (fuel : ℕ) (data : List ℕ), data.length ≤ fuel → max ∣ data.length →
      (splitFullChunks fuel max data).length = data.length / max ∧
      ((splitFullChunks fuel max data).reverse).flatten = data ∧
      ∀ c ∈ splitFullChunks fuel max data, c.length = max := by
  intro fuel
  induction fuel with
  | zero =>
    intro data hlen _
    have hdata : data = [] := List.length_eq_zero.mp (Nat.le_zero.mp hlen)
    subst hdata
    simp [splitFullChunks]
  | succ fuel ih =>
    intro data hlen hdvd
    by_cases h0 : data.length = 0
    · have hdata : data = [] := List.length_eq_zero.mp h0
      subst hdata
      simp [splitFullChunks]
    · have hmle : max ≤ data.length :=
        Nat.le_of_dvd (Nat.pos_of_ne_zero h0) hdvd
      obtain ⟨k, hk⟩ := hdvd
      obtain ⟨k', rfl⟩ : ∃ k', k = k' + 1 := by
        rcases k with _ | k'
        · exact absurd (by simpa using hk) h0
        · exact ⟨k', rfl⟩
      have hmul : max * (k' + 1) = max * k' + max := by ring
      have hrest_len : (data.take (data.length - max)).length = max * k' := by
        simp only [List.length_take]
        omega
      have hrec := ih (data.take (data.length - max))
        (by omega) (by rw [hrest_len]; exact Dvd.intro k' rfl)
      have hdiv1 : max * k' / max = k' := Nat.mul_div_cancel_left k' hmax
      have hdiv2 : data.length / max = k' + 1 := by
        rw [hk]; exact Nat.mul_div_cancel_left (k' + 1) hmax
      rw [splitFullChunks, if_neg h0]
      refine ⟨?_, ?_, ?_⟩
      · simp only [List.length_cons, hrec.1, hrest_len, hdiv1, hdiv2]
      · rw [List.reverse_cons, List.flatten_append, hrec.2.1]
        simp [List.take_append_drop]
      · intro c hc
        rcases List.mem_cons.mp hc with h | h
        · subst h; simp only [List.length_drop]; omega
        · exact hrec.2.2 c h

theorem splitPieces_spec (max : ℕ) (hmax : 0 < max) (data : List ℕ) :
    (splitPieces max data).length = data.length / max + 1 ∧
    ((splitPieces max data).reverse).flatten = data ∧
    (∀ c ∈ (splitPieces max data).reverse.dropLast, c.length = max) ∧
    ((splitPieces max data).reverse.getLast? =
      some (data.drop (data.length - data.length % max))) := by
  have hmod : data.length % max ≤ data.length := Nat.mod_le _ _
  have htake_len : (data.take (data.length - data.length % max)).length
      = data.length - data.length % max := by
    simp [List.length_take]
  have hdvd : max ∣ data.length - data.length % max := by
    have := Nat.div_add_mod data.length max
    exact ⟨data.length / max, by omega⟩
  have hfc := splitFullChunks_spec max hmax data.length
    (data.take (data.length - data.length % max)) (by rw [htake_len]; omega)
    (by rw [htake_len]; exact hdvd)
  constructor
  · unfold splitPieces
    simp only [List.length_cons, hfc.1, htake_len]
    have hq : data.length - data.length % max = max * (data.length / max) := by
      have := Nat.div_add_mod data.length max
      omega
    rw [hq, Nat.mul_div_cancel_left _ hmax]
  refine ⟨?_, ?_, ?_⟩
  · unfold splitPieces
    rw [List.reverse_cons, List.flatten_append, hfc.2.1]
    simp [List.take_append_drop]
  · unfold splitPieces
    rw [List.reverse_cons, List.dropLast_concat]
    intro c hc
    exact hfc.2.2 c (List.mem_reverse.mp hc)
  · unfold splitPieces
    rw [List.reverse_cons, List.getLast?_concat]

theorem wirePieces_ne_nil (compress : List ℕ → List ℕ) (is_client : Bool)
    (typ : PacketType) (data : List ℕ) :
    wirePieces compress is_client typ data ≠ [] := by
  unfold wirePieces
  by_cases h : (effectiveBody compress is_client data).length ≤ body_budget is_client ∨
      typ = PacketType.VoiceWhisper
  · simp [h]
  · simp [h, splitPieces]

theorem compress_and_split_eq (compress : List ℕ → List ℕ) (is_client : Bool)
    (typ : PacketType) (data : List ℕ) :
    compress_and_split compress is_client typ data =
      (wirePieces compress is_client typ data).enum.map fun p =>
        (⟨typ, decide (p.1 = 0) && retainedB compress is_client data,
          decide (1 < (wirePieces compress is_client typ data).length) &&
            (decide (p.1 = 0) ||
              decide (p.1 =
                (wirePieces compress is_client typ data).length - 1))⟩,
         p.2) := by
  by_cases h1 : body_budget is_client - 100 < data.length
  · by_cases h2 : data.length < (compress data).length
    · by_cases h3 : data.length ≤ body_budget is_client ∨ typ = PacketType.VoiceWhisper
      · simp [compress_and_split, wirePieces, effectiveBody, retainedB, h1, h2, h3]
      · simp [compress_and_split, wirePieces, effectiveBody, retainedB, h1, h2, h3,
          List.length_reverse]
    · by_cases h3 : (compress data).length ≤ body_budget is_client ∨
          typ = PacketType.VoiceWhisper
      · simp [compress_and_split, wirePieces, effectiveBody, retainedB, h1, h2, h3]
      · simp [compress_and_split, wirePieces, effectiveBody, retainedB, h1, h2, h3,
          List.length_reverse]
  · have hfit : data.length ≤ body_budget is_client := by
      have := Nat.sub_le (body_budget is_client) 100
      omega
    simp [compress_and_split, wirePieces, effectiveBody, retainedB, h1,
      Or.inl hfit, hfit]

theorem budget_pos (is_client : Bool) : 0 < body_budget is_client := by
  cases is_client <;> simp [body_budget]

theorem wirePieces_flatten (compress : List ℕ → List ℕ) (is_client : Bool)
    (typ : PacketType) (data : List ℕ) :
    (wirePieces compress is_client typ data).flatten =
      effectiveBody compress is_client data := by
  unfold wirePieces
  by_cases h : (effectiveBody compress is_client data).length ≤ body_budget is_client ∨
      typ = PacketType.VoiceWhisper
  · simp [h]
  · simp only [h, if_neg, if_false]
    exact (splitPieces_spec (body_budget is_client) (budget_pos is_client)
      (effectiveBody compress is_client data)).2.1

theorem enum_map_pair_snd {α β : Type} (l : List α) (g : ℕ → β) :
    ((l.enum.map fun p => (g p.1, p.2)).map Prod.snd) = l := by
  rw [List.map_map]
  have h : (Prod.snd ∘ fun p : ℕ × α => (g p.1, p.2)) = Prod.snd := rfl
  rw [h, List.enum_map_snd]

theorem enum_map_pair_fst {α β : Type} (l : List α) (g : ℕ → β) :
    ((l.enum.map fun p => (g p.1, p.2)).map Prod.fst) =
      (List.range l.length).map g := by
  rw [List.map_map]
  have h : (Prod.fst ∘ fun p : ℕ × α => (g p.1, p.2)) = g ∘ Prod.fst := rfl
  rw [h, ← List.map_map, List.enum_map_fst]

theorem compress_and_split_map_snd (compress : List ℕ → List ℕ) (is_client : Bool)
    (typ : PacketType) (data : List ℕ) :
    (compress_and_split compress is_client typ data).map Prod.snd =
      wirePieces compress is_client typ data := by
  rw [compress_and_split_eq]
  exact enum_map_pair_snd (wirePieces compress is_client typ data)
    (fun i => (⟨typ, decide (i = 0) && retainedB compress is_client data,
      decide (1 < (wirePieces compress is_client typ data).length) &&
        (decide (i = 0) ||
          decide (i = (wirePieces compress is_client typ data).length - 1))⟩ :
      FragHeader))

theorem compress_and_split_length (compress : List ℕ → List ℕ) (is_client : Bool)
    (typ : PacketType) (data : List ℕ) :
    (compress_and_split compress is_client typ data).length =
      (wirePieces compress is_client typ data).length := by
  rw [compress_and_split_eq]
  simp [List.enum_length]

/-- C8: `must_encrypt t` holds exactly on `Command`/`CommandLow`, and
`should_encrypt t v` exactly when `must_encrypt t`, or `t` is `Ack`/`AckLow`,
or the voice flag is set and `t` is `Voice`/`VoiceWhisper`. -/
theorem encrypt_predicates (t : PacketType) (v : Bool) :
    (must_encrypt t = true ↔ (t = PacketType.Command ∨ t = PacketType.CommandLow)) ∧
    (should_encrypt t v = true ↔
      ((t = PacketType.Command ∨ t = PacketType.CommandLow) ∨
        t = PacketType.Ack ∨ t = PacketType.AckLow ∨
        (v = true ∧ (t = PacketType.Voice ∨ t = PacketType.VoiceWhisper)))) := by
  cases t <;> cases v <;> decide

/-- C3: the headers of `compress_and_split`'s output carry the `compressed`
flag exactly on fragment 0 and exactly when compression was retained, and the
`fragmented` flag exactly on fragments 0 and N-1 when there are N > 1 fragments
(never on a single fragment); concatenating the fragment bodies in wire order
yields the (possibly compressed) body. -/
theorem compress_and_split_flag_policy (compress : List ℕ → List ℕ)
    (is_client : Bool) (typ : PacketType) (data : List ℕ) :
    ((compress_and_split compress is_client typ data).map Prod.fst =
      (List.range (compress_and_split compress is_client typ data).length).map
        fun i =>
          ⟨typ, decide (i = 0) && retainedB compress is_client data,
            decide (1 < (compress_and_split compress is_client typ data).length) &&
              (decide (i = 0) ||
                decide (i =
                  (compress_and_split compress is_client typ data).length - 1))⟩) ∧
    ((compress_and_split compress is_client typ data).map Prod.snd).flatten =
      effectiveBody compress is_client data := by
  constructor
  · rw [compress_and_split_length]
    conv_lhs => rw [compress_and_split_eq]
    exact enum_map_pair_fst (wirePieces compress is_client typ data)
      (fun i => (⟨typ, decide (i = 0) && retainedB compress is_client data,
        decide (1 < (wirePieces compress is_client typ data).length) &&
          (decide (i = 0) ||
            decide (i = (wirePieces compress is_client typ data).length - 1))⟩ :
        FragHeader))
  · rw [compress_and_split_map_snd, wirePieces_flatten]

/-- C2 (amended): when the possibly-compressed body of a `Command`/`CommandLow`
packet has length `len` exceeding `body_budget`, `compress_and_split` returns
`len / body_budget + 1` fragments (that is `ceil(len / body_budget)` when the
budget does not divide `len`, and one more — an empty final fragment — when it
does), each of at most `body_budget` bytes, the full-size pieces first and the
residual piece of `len % body_budget` bytes last, concatenating in wire order
to the original data. -/
theorem compress_and_split_fragment_count (compress : List ℕ → List ℕ)
    (is_client : Bool) (typ : PacketType) (data : List ℕ)
    (hty : typ = PacketType.Command ∨ typ = PacketType.CommandLow)
    (hbig : body_budget is_client <
      (effectiveBody compress is_client data).length) :
    (compress_and_split compress is_client typ data).length =
      (effectiveBody compress is_client data).length / body_budget is_client + 1 ∧
    (∀ fr ∈ (compress_and_split compress is_client typ data).map Prod.snd,
      fr.length ≤ body_budget is_client) ∧
    (∀ fr ∈ ((compress_and_split compress is_client typ data).map Prod.snd).dropLast,
      fr.length = body_budget is_client) ∧
    (((compress_and_split compress is_client typ data).map Prod.snd).getLast? =
      some ((effectiveBody compress is_client data).drop
        ((effectiveBody compress is_client data).length -
          (effectiveBody compress is_client data).length % body_budget is_client))) ∧
    ((compress_and_split compress is_client typ data).map Prod.snd).flatten =
      effectiveBody compress is_client data := by
  have hwh : typ ≠ PacketType.VoiceWhisper := by
    rcases hty with rfl | rfl <;> simp
  have hcond : ¬ ((effectiveBody compress is_client data).length ≤
      body_budget is_client ∨ typ = PacketType.VoiceWhisper) := by
    push_neg
    exact ⟨by omega, hwh⟩
  have hwp : wirePieces compress is_client typ data =
      (splitPieces (body_budget is_client)
        (effectiveBody compress is_client data)).reverse := by
    unfold wirePieces
    simp only [hcond, if_neg, if_false]
  have hsp := splitPieces_spec (body_budget is_client) (budget_pos is_client)
    (effectiveBody compress is_client data)
  refine ⟨?_, ?_, ?_, ?_, ?_⟩
  · rw [compress_and_split_length, hwp, List.length_reverse, hsp.1]
  · rw [compress_and_split_map_snd, hwp]
    intro fr hfr
    rw [List.mem_reverse] at hfr
    unfold splitPieces at hfr
    rcases List.mem_cons.mp hfr with h | h
    · subst h
      simp only [List.length_drop]
      have := Nat.mod_lt (effectiveBody compress is_client data).length
        (budget_pos is_client)
      omega
    · have := ((splitFullChunks_spec (body_budget is_client)
        (budget_pos is_client) (effectiveBody compress is_client data).length
        _ (by simp [List.length_take]) (by
          simp only [List.length_take]
          have := Nat.div_add_mod (effectiveBody compress is_client data).length
            (body_budget is_client)
          exact ⟨(effectiveBody compress is_client data).length /
            body_budget is_client, by omega⟩)).2.2) fr h
      omega
  · rw [compress_and_split_map_snd, hwp]
    exact hsp.2.2.1
  · rw [compress_and_split_map_snd, hwp]
    exact hsp.2.2.2
  · rw [compress_and_split_map_snd, hwp]
    exact hsp.2.1

/-- Witness for C2 at a concrete input: a 500-byte incompressible server-side
`Command` body (budget 489) splits into 500 / 489 + 1 = 2 fragments. -/
theorem compress_and_split_fragment_count_w :
    (compress_and_split (fun d => d ++ [0]) false PacketType.Command
      (List.replicate 500 0)).length =
      (effectiveBody (fun d => d ++ [0]) false
        (List.replicate 500 0)).length / body_budget false + 1 :=
  (compress_and_split_fragment_count (fun d => d ++ [0]) false
    PacketType.Command (List.replicate 500 0) (Or.inl rfl) (by decide)).1

/-- C2 counterexample: a 978-byte incompressible `Command` body on the server
side (budget 489, which divides 978) is split into 3 fragments, not
`ceil(978 / 489) = 2` as the claim states. -/
theorem compress_and_split_count_cex :
    (effectiveBody (fun d => d ++ [0]) false (List.replicate 978 0)).length = 978 ∧
    (978 + 489 - 1) / 489 = 2 ∧
    (compress_and_split (fun d => d ++ [0]) false PacketType.Command
      (List.replicate 978 0)).length = 3 := by
  refine ⟨by decide, by norm_num, by decide⟩

/-- C4 (amended): `compress_and_split` attempts compression when the body
exceeds `body_budget - 100` bytes and keeps the compressed form — setting the
`compressed` flag on the first fragment — if and only if the compressed form is
not larger (`≤`, not strictly smaller) than the original body; otherwise the
original bytes are transmitted. -/
theorem compress_and_split_compression_policy (compress : List ℕ → List ℕ)
    (is_client : Bool) (typ : PacketType) (data : List ℕ) :
    (((compress_and_split compress is_client typ data).map
        (fun fr => fr.1.compressed)).head? =
      some (retainedB compress is_client data)) ∧
    (retainedB compress is_client data =
      (decide (body_budget is_client - 100 < data.length) &&
        decide ((compress data).length ≤ data.length))) ∧
    (((compress_and_split compress is_client typ data).map Prod.snd).flatten =
      if retainedB compress is_client data then compress data else data) := by
  refine ⟨?_, ?_, ?_⟩
  · rw [compress_and_split_eq, List.map_map]
    obtain ⟨a, t, hwp⟩ : ∃ a t, wirePieces compress is_client typ data = a :: t := by
      cases h : wirePieces compress is_client typ data with
      | nil => exact absurd h (wirePieces_ne_nil compress is_client typ data)
      | cons a t => exact ⟨a, t, rfl⟩
    rw [hwp]
    simp [List.enum_cons]
  · unfold retainedB
    by_cases h : data.length < (compress data).length
    · have h2 : ¬ (compress data).length ≤ data.length := by omega
      simp [h, h2]
    · have h2 : (compress data).length ≤ data.length := by omega
      simp [h, h2]
  · rw [compress_and_split_map_snd, wirePieces_flatten, effectiveBody_eq_ite]

/-- C4 counterexample: with a compressor returning exactly the input length
(400-byte client `Command` body), the compressed form is not strictly smaller,
yet the code keeps it and sets the `compressed` flag on the first fragment. -/
theorem compress_and_split_compressed_flag_cex :
    (((compress_and_split (fun d => d) true PacketType.Command
        (List.replicate 400 7)).map (fun fr => fr.1.compressed)).head? =
      some true) ∧
    ¬ ((fun (d : List ℕ) => d) (List.replicate 400 7)).length <
        (List.replicate 400 7).length := by
  exact ⟨by decide, by simp⟩

/-- `SharedIv` from `connection.rs` (declared outside `src/`, matched on in
`algorithms.rs`): 20 raw bytes for the original protocol, 64 for Protocol31. -/
inductive SharedIv where
  | ProtocolOrig (data : List ℕ)
  | Protocol31 (data : List ℕ)
deriving DecidableEq, Repr

/-- `CachedKey` from `connection.rs` (declared outside `src/`): the fields
read and written by `create_key_nonce`. -/
structure CachedKey where
  key : List ℕ
  nonce : List ℕ
  generation_id : ℕ
deriving DecidableEq, Repr

/-- The 4 big-endian bytes of a `u32`
(`buf.write_u32::<NetworkEndian>(generation_id)`). -/
def u32be (n : ℕ) : List ℕ :=
  [n / 2 ^ 24 % 256, n / 2 ^ 16 % 256, n / 2 ^ 8 % 256, n % 256]

/-- The populated scratch prefix `temp[..len]` assembled by `create_key_nonce`:
byte 0 is `0x31` when `c_id` is present else `0x30`, byte 1 the type nibble,
bytes 2..6 the big-endian `generation_id`, then the raw shared-IV bytes
(20 for `ProtocolOrig`, giving `len = 26`; 64 for `Protocol31`, `len = 70`). -/
def keyNonceScratch (header : Header) (generation_id : ℕ) (iv : SharedIv) :
    List ℕ :=
  (if header.c_id.isSome then 0x31 else 0x30) ::
    (header.p_type &&& 0xf) ::
      (u32be generation_id ++
        (match iv with
         | .ProtocolOrig d => d
         | .Protocol31 d => d))

/-- `create_key_nonce` from `algorithms.rs`.  `sha256` stands for
`ring::digest::digest(&digest::SHA256, ·)` (an external primitive).  The
`[CachedKey; 8]` cache array is modelled as a total map from the slot index;
the source indexes it at `header.p_type & 0xf`.  Returns the per-packet
(key, nonce) pair and the updated cache. -/
def create_key_nonce (sha256 : List ℕ → List ℕ) (header : Header)
    (generation_id : ℕ) (iv : SharedIv) (cache : ℕ → CachedKey) :
    (List ℕ × List ℕ) × (ℕ → CachedKey) :=
  let idx := header.p_type &&& 0xf
  let slot := cache idx
  let slot :=
    if slot.generation_id ≠ generation_id then
      let keynonce := sha256 (keyNonceScratch header generation_id iv)
      { slot with key := keynonce.take 16, nonce := keynonce.drop 16 }
    else slot
  let key := slot.key
  let nonce := slot.nonce
  let key := key.set 0 ((key.getD 0 0) ^^^ (header.p_id / 2 ^ 8 % 256))
  let key := key.set 1 ((key.getD 1 0) ^^^ (header.p_id % 256))
  ((key, nonce), fun i => if i = idx then slot else cache i)

/-- C1 (code bug): with a `Command` header (type nibble 2, `c_id` present), a
Protocol31 shared IV and a cache slot whose stored generation 0 differs from
the argument 1, `create_key_nonce` rebuilds the slot — the key becomes the
first 16 digest bytes of the 70-byte scratch buffer and the nonce the last
16 — but the slot's stored `generation_id` remains 0: the source never
executes `cache.generation_id = generation_id`, so a subsequent call with the
same argument 1 rebuilds again, contrary to the claim. -/
theorem create_key_nonce_generation_not_stored :
    ∀ sha256 : List ℕ → List ℕ,
      ((create_key_nonce sha256 ⟨List.replicate 8 0, 0, some 0, 2⟩ 1
          (SharedIv.Protocol31 (List.replicate 64 0))
          (fun _ => ⟨List.replicate 16 0, List.replicate 16 0, 0⟩)).2 2).key =
        (sha256 (keyNonceScratch ⟨List.replicate 8 0, 0, some 0, 2⟩ 1
          (SharedIv.Protocol31 (List.replicate 64 0)))).take 16 ∧
      ((create_key_nonce sha256 ⟨List.replicate 8 0, 0, some 0, 2⟩ 1
          (SharedIv.Protocol31 (List.replicate 64 0))
          (fun _ => ⟨List.replicate 16 0, List.replicate 16 0, 0⟩)).2 2).nonce =
        (sha256 (keyNonceScratch ⟨List.replicate 8 0, 0, some 0, 2⟩ 1
          (SharedIv.Protocol31 (List.replicate 64 0)))).drop 16 ∧
      ((create_key_nonce sha256 ⟨List.replicate 8 0, 0, some 0, 2⟩ 1
          (SharedIv.Protocol31 (List.replicate 64 0))
          (fun _ => ⟨List.replicate 16 0, List.replicate 16 0, 0⟩)).2 2).generation_id
        = 0 := by
  intro sha256
  exact ⟨rfl, rfl, rfl⟩

/-- The scratch buffer is 26 bytes long for `ProtocolOrig` IVs (20 raw bytes)
and 70 bytes long for `Protocol31` IVs (64 raw bytes), as the claim states. -/
theorem keyNonceScratch_length (header : Header) (generation_id : ℕ) :
    (∀ d : List ℕ, d.length = 20 →
      (keyNonceScratch header generation_id (SharedIv.ProtocolOrig d)).length = 26) ∧
    (∀ d : List ℕ, d.length = 64 →
      (keyNonceScratch header generation_id (SharedIv.Protocol31 d)).length = 70) := by
  constructor <;> intro d hd <;> simp [keyNonceScratch, u32be, hd]

/-- `decrypt_key_nonce` from `algorithms.rs`, state-passing on the `data`
buffer: the result pairs a success flag with the final contents of the
caller's buffer.  `eaxDecrypt key nonce meta data mac` stands for
`crypto::Eax::decrypt` (an external primitive); `none` models its error
return (EAX tag mismatch), at which point the `?` operator exits before
`data.copy_from_slice(&dec)` runs, leaving the buffer untouched. -/
def decrypt_key_nonce
    (eaxDecrypt : List ℕ → List ℕ → List ℕ → List ℕ → List ℕ → Option (List ℕ))
    (header : Header) (data : List ℕ) (key nonce : List ℕ) : Bool × List ℕ :=
  match eaxDecrypt key nonce header.write_meta data header.mac with
  | none => (false, data)
  | some dec => (true, dec)

/-- `decrypt_fake` from `algorithms.rs`; `fake_key`/`fake_nonce` stand for the
library constants `::FAKE_KEY`/`::FAKE_NONCE` (defined outside `src/`). -/
def decrypt_fake
    (eaxDecrypt : List ℕ → List ℕ → List ℕ → List ℕ → List ℕ → Option (List ℕ))
    (fake_key fake_nonce : List ℕ) (header : Header) (data : List ℕ) :
    Bool × List ℕ :=
  decrypt_key_nonce eaxDecrypt header data fake_key fake_nonce

/-- `decrypt` from `algorithms.rs`: derive the (key, nonce) pair through
`create_key_nonce` (updating the cache) and call `decrypt_key_nonce`. -/
def decrypt
    (eaxDecrypt : List ℕ → List ℕ → List ℕ → List ℕ → List ℕ → Option (List ℕ))
    (sha256 : List ℕ → List ℕ) (header : Header) (data : List ℕ)
    (generation_id : ℕ) (iv : SharedIv) (cache : ℕ → CachedKey) :
    (Bool × List ℕ) × (ℕ → CachedKey) :=
  let kn := create_key_nonce sha256 header generation_id iv cache
  (decrypt_key_nonce eaxDecrypt header data kn.1.1 kn.1.2, kn.2)

/-- C5: when the EAX decryption primitive reports a tag mismatch on this
header and buffer, `decrypt_key_nonce` — and hence `decrypt` and
`decrypt_fake` — returns the error flag and the caller's data buffer
unchanged: no plaintext bytes are written on the failure path. -/
theorem decrypt_failure_leaves_buffer
    (eaxDecrypt : List ℕ → List ℕ → List ℕ → List ℕ → List ℕ → Option (List ℕ))
    (sha256 : List ℕ → List ℕ) (header : Header) (data : List ℕ)
    (key nonce fake_key fake_nonce : List ℕ) (generation_id : ℕ)
    (iv : SharedIv) (cache : ℕ → CachedKey)
    (h : ∀ k n, eaxDecrypt k n header.write_meta data header.mac = none) :
    decrypt_key_nonce eaxDecrypt header data key nonce = (false, data) ∧
    (decrypt eaxDecrypt sha256 header data generation_id iv cache).1 =
      (false, data) ∧
    decrypt_fake eaxDecrypt fake_key fake_nonce header data = (false, data) := by
  refine ⟨?_, ?_, ?_⟩ <;>
    simp [decrypt_key_nonce, decrypt, decrypt_fake, h]

/-- Witness for C5 at a concrete input: an oracle that always reports a tag
mismatch, an Ack-like server header, and the buffer `[1, 2, 3]`. -/
theorem decrypt_failure_leaves_buffer_w :
    decrypt_key_nonce (fun _ _ _ _ _ => none) ⟨List.replicate 8 0, 0, none, 6⟩
      [1, 2, 3] (List.replicate 16 0) (List.replicate 16 0) = (false, [1, 2, 3]) ∧
    (decrypt (fun _ _ _ _ _ => none) (fun _ => List.replicate 32 0)
      ⟨List.replicate 8 0, 0, none, 6⟩ [1, 2, 3] 0
      (SharedIv.ProtocolOrig (List.replicate 20 0))
      (fun _ => ⟨List.replicate 16 0, List.replicate 16 0, 0⟩)).1 =
      (false, [1, 2, 3]) ∧
    decrypt_fake (fun _ _ _ _ _ => none) (List.replicate 16 0)
      (List.replicate 16 0) ⟨List.replicate 8 0, 0, none, 6⟩ [1, 2, 3] =
      (false, [1, 2, 3]) :=
  decrypt_failure_leaves_buffer (fun _ _ _ _ _ => none)
    (fun _ => List.replicate 32 0) ⟨List.replicate 8 0, 0, none, 6⟩ [1, 2, 3]
    (List.replicate 16 0) (List.replicate 16 0) (List.replicate 16 0)
    (List.replicate 16 0) 0 (SharedIv.ProtocolOrig (List.replicate 20 0))
    (fun _ => ⟨List.replicate 16 0, List.replicate 16 0, 0⟩)
    (fun _ _ => rfl)

/-- One of the `for` loops of `compute_iv_mac31` (and `compute_iv_mac`):
for `i in 0..n`, `iv[i + off] ^= xs[i]`. -/
def xorInto (iv : List ℕ) (off : ℕ) (xs : List ℕ) (n : ℕ) : List ℕ :=
  (List.range n).foldl
    (fun acc i => acc.set (i + off) ((acc.getD (i + off) 0) ^^^ xs.getD i 0)) iv

theorem getD_set_zero (l : List ℕ) (m i a : ℕ) :
    (l.set m a).getD i 0 =
      if m = i ∧ i < l.length then a else l.getD i 0 := by
  by_cases hm : m = i
  · subst hm
    by_cases hl : m < l.length
    · simp [List.getD_eq_getElem?_getD, List.getElem?_set_self', hl,
        List.getElem?_eq_getElem hl]
    · rw [List.set_eq_of_length_le (by omega)]
      simp [hl]
  · simp [List.getD_eq_getElem?_getD, List.getElem?_set_ne hm, hm]

theorem xorInto_length (iv : List ℕ) (off : ℕ) (xs : List ℕ) :
    ∀ n, (xorInto iv off xs n).length = iv.length := by
  intro n
  induction n with
  | zero => simp [xorInto]
  | succ n ih =>
    unfold xorInto at ih ⊢
    simp only [List.range_succ, List.foldl_append, List.foldl_cons,
      List.foldl_nil]
    rw [List.length_set]
    exact ih

theorem xorInto_getD (off : ℕ) (xs : List ℕ) :
    ∀ (n : ℕ) (iv : List ℕ) (i : ℕ),
      (xorInto iv off xs n).getD i 0 =
        if off ≤ i ∧ i < off + n ∧ i < iv.length then
          iv.getD i 0 ^^^ xs.getD (i - off) 0
        else iv.getD i 0 := by
  intro n
  induction n with
  | zero =>
    intro iv i
    unfold xorInto
    simp only [List.range_zero, List.foldl_nil]
    rw [if_neg (by omega : ¬ (off ≤ i ∧ i < off + 0 ∧ i < iv.length))]
  | succ n ih =>
    intro iv i
    have hlen := xorInto_length iv off xs n
    unfold xorInto at ih hlen ⊢
    simp only [List.range_succ, List.foldl_append, List.foldl_cons,
      List.foldl_nil]
    rw [getD_set_zero, hlen]
    by_cases hio : i = n + off
    · subst hio
      by_cases hl : n + off < iv.length
      · rw [if_pos ⟨rfl, hl⟩, ih]
        rw [if_neg (by omega :
          ¬ (off ≤ n + off ∧ n + off < off + n ∧ n + off < iv.length))]
        rw [if_pos (⟨by omega, by omega, hl⟩ :
          off ≤ n + off ∧ n + off < off + (n + 1) ∧ n + off < iv.length)]
        have harg : n + off - off = n := by omega
        rw [harg]
      · rw [if_neg (fun h => hl h.2), ih]
        rw [if_neg (by omega :
          ¬ (off ≤ n + off ∧ n + off < off + n ∧ n + off < iv.length))]
        rw [if_neg (by omega :
          ¬ (off ≤ n + off ∧ n + off < off + (n + 1) ∧ n + off < iv.length))]
    · rw [if_neg (fun h => hio h.1.symm), ih]
      by_cases hc : off ≤ i ∧ i < off + n ∧ i < iv.length
      · rw [if_pos hc, if_pos (⟨hc.1, by omega, hc.2.2⟩ :
          off ≤ i ∧ i < off + (n + 1) ∧ i < iv.length)]
      · rw [if_neg hc, if_neg (by omega :
          ¬ (off ≤ i ∧ i < off + (n + 1) ∧ i < iv.length))]

/-- `compute_iv_mac31` from `algorithms.rs`.  `createSharedSecret` stands for
`EccKeyPrivEd25519::create_shared_secret` (in `crypto.rs`, outside `src/`,
applied to `our_key` and `other_key`); `sha512`/`sha1` for the ring digests.
The destination `[0; 64]` of `copy_from_slice` is the 64-byte SHA-512 digest. -/
def compute_iv_mac31 {α β : Type}
    (createSharedSecret : α → β → Option (List ℕ))
    (sha512 sha1 : List ℕ → List ℕ) (alpha beta : List ℕ)
    (our_key : α) (other_key : β) : Option (List ℕ × List ℕ) :=
  match createSharedSecret our_key other_key with
  | none => none
  | some shared_secret =>
    let shared_iv := sha512 shared_secret
    let shared_iv := xorInto shared_iv 0 alpha 10
    let shared_iv := xorInto shared_iv 10 beta 54
    some (shared_iv, (sha1 shared_iv).take 8)

/-- C7: when the shared-secret computation succeeds, `compute_iv_mac31`
returns a 64-byte `shared_iv` equal to the SHA-512 digest of the secret with
`alpha` XOR-ed into bytes 0..10 and `beta` XOR-ed into bytes 10..64, and
`shared_mac` equal to the first 8 bytes of SHA-1 of that already-XOR-ed
`shared_iv`; being a pure function of its inputs, the result is deterministic
in (alpha, beta, our_key, other_key). -/
theorem compute_iv_mac31_spec {α β : Type}
    (createSharedSecret : α → β → Option (List ℕ))
    (sha512 sha1 : List ℕ → List ℕ) (alpha beta : List ℕ)
    (our_key : α) (other_key : β) (secret : List ℕ)
    (hsec : createSharedSecret our_key other_key = some secret)
    (h64 : (sha512 secret).length = 64) :
    ∃ shared_iv shared_mac,
      compute_iv_mac31 createSharedSecret sha512 sha1 alpha beta our_key
          other_key = some (shared_iv, shared_mac) ∧
      shared_iv.length = 64 ∧
      (∀ i, i < 64 → shared_iv.getD i 0 =
        (sha512 secret).getD i 0 ^^^
          (if i < 10 then alpha.getD i 0 else beta.getD (i - 10) 0)) ∧
      shared_mac = (sha1 shared_iv).take 8 := by
  refine ⟨xorInto (xorInto (sha512 secret) 0 alpha 10) 10 beta 54,
    (sha1 (xorInto (xorInto (sha512 secret) 0 alpha 10) 10 beta 54)).take 8,
    ?_, ?_, ?_, rfl⟩
  · unfold compute_iv_mac31
    rw [hsec]
  · rw [xorInto_length, xorInto_length, h64]
  · intro i hi
    have hlen1 : (xorInto (sha512 secret) 0 alpha 10).length = 64 := by
      rw [xorInto_length, h64]
    rw [xorInto_getD, hlen1, xorInto_getD, h64]
    by_cases h10 : i < 10
    · have hc1 : ¬ (10 ≤ i ∧ i < 10 + 54 ∧ i < 64) := by omega
      rw [if_neg hc1, if_pos (⟨by omega, by omega, by omega⟩ :
        0 ≤ i ∧ i < 0 + 10 ∧ i < 64), if_pos h10]
      simp
    · have hc1 : 10 ≤ i ∧ i < 10 + 54 ∧ i < 64 := ⟨by omega, by omega, by omega⟩
      rw [if_pos hc1]
      have hc2 : ¬ (0 ≤ i ∧ i < 0 + 10 ∧ i < 64) := by omega
      rw [if_neg hc2, if_neg h10]

/-- Witness for C7 at concrete oracles and inputs: a shared-secret oracle
returning the empty secret, a constant 64-byte SHA-512, a constant 20-byte
SHA-1, `alpha = 10` one-bytes and `beta = 54` two-bytes. -/
theorem compute_iv_mac31_spec_w :
    ∃ shared_iv shared_mac,
      compute_iv_mac31 (fun (_ : ℕ) (_ : ℕ) => some [])
          (fun _ => List.replicate 64 3) (fun _ => List.replicate 20 4)
          (List.replicate 10 1) (List.replicate 54 2) 0 0 =
        some (shared_iv, shared_mac) ∧
      shared_iv.length = 64 ∧
      (∀ i, i < 64 → shared_iv.getD i 0 =
        ((fun (_ : List ℕ) => List.replicate 64 3) []).getD i 0 ^^^
          (if i < 10 then (List.replicate 10 1).getD i 0
           else (List.replicate 54 2).getD (i - 10) 0)) ∧
      shared_mac = ((fun (_ : List ℕ) => List.replicate 20 4) shared_iv).take 8 :=
  compute_iv_mac31_spec (fun _ _ => some []) (fun _ => List.replicate 64 3)
    (fun _ => List.replicate 20 4) (List.replicate 10 1) (List.replicate 54 2)
    0 0 [] rfl (by simp)

/-- `u8::leading_zeros`, tabulated: number of leading zero bits of a byte. -/
def leadingZeros8 (d : ℕ) : ℕ :=
  if 128 ≤ d then 0
  else if 64 ≤ d then 1
  else if 32 ≤ d then 2
  else if 16 ≤ d then 3
  else if 8 ≤ d then 4
  else if 4 ≤ d then 5
  else if 2 ≤ d then 6
  else if 1 ≤ d then 7
  else 8

/-- The byte loop of `get_hash_cash_level`: each whole zero byte contributes
8, the first nonzero byte its `leading_zeros`, then the loop breaks. -/
def levelOfDigest : List ℕ → ℕ
  | [] => 0
  | d :: rest => if d = 0 then 8 + levelOfDigest rest else leadingZeros8 d

/-- `get_hash_cash_level` from `algorithms.rs`.  `sha1` stands for the ring
SHA-1 digest of the UTF-8 bytes of its string argument, here applied to
`format!("\x7b\x7d\x7b\x7d", omega, offset)` — `omega` followed by the decimal
offset. -/
def get_hash_cash_level (sha1 : String → List ℕ) (omega : String)
    (offset : ℕ) : ℕ :=
  levelOfDigest (sha1 (omega ++ toString offset))

/-- `u64::MAX` as a natural. -/
def u64max : ℕ := 2 ^ 64 - 1

/-- The search loop of `hash_cash`:
`while offset < u64::MAX && get_hash_cash_level(&omega, offset) < level`,
with explicit fuel; `u64max` steps of fuel always suffice, since the offset
starts at 0 and each iteration increases it by 1 while it stays below
`u64max`. -/
def hashCashLoop (lvl : ℕ → ℕ) (level : ℕ) : ℕ → ℕ → ℕ
  | 0, offset => offset
  | fuel + 1, offset =>
    if offset < u64max ∧ lvl offset < level then
      hashCashLoop lvl level fuel (offset + 1)
    else offset

/-- `hash_cash` from `algorithms.rs`.  `omega` is `key.to_ts()`, the canonical
textual key form computed in `crypto.rs` (outside `src/`), taken here as the
already-serialised string. -/
def hash_cash (sha1 : String → List ℕ) (omega : String) (level : ℕ) : ℕ :=
  hashCashLoop (get_hash_cash_level sha1 omega) level u64max 0

theorem hashCashLoop_all_fail (lvl : ℕ → ℕ) (level : ℕ)
    (h : ∀ o, lvl o < level) :
    ∀ (fuel offset : ℕ), offset ≤ u64max →
      hashCashLoop lvl level fuel offset = min (offset + fuel) u64max := by
  intro fuel
  induction fuel with
  | zero => intro offset ho; simp [hashCashLoop]; omega
  | succ fuel ih =>
    intro offset ho
    rw [hashCashLoop]
    by_cases hlt : offset < u64max
    · rw [if_pos ⟨hlt, h offset⟩, ih (offset + 1) (by omega)]
      omega
    · rw [if_neg (fun hc => hlt hc.1)]
      omega

theorem hashCashLoop_finds (lvl : ℕ → ℕ) (level m : ℕ)
    (hm : level ≤ lvl m) (hmin : ∀ o, o < m → lvl o < level)
    (hmax : m < u64max) :
    ∀ (fuel offset : ℕ), offset ≤ m → m ≤ offset + fuel →
      hashCashLoop lvl level fuel offset = m := by
  intro fuel
  induction fuel with
  | zero => intro offset h1 h2; rw [hashCashLoop]; omega
  | succ fuel ih =>
    intro offset h1 h2
    rw [hashCashLoop]
    by_cases heq : offset = m
    · subst heq
      rw [if_neg (fun hc => absurd hm (by omega : ¬ level ≤ lvl offset))]
    · rw [if_pos ⟨by omega, hmin offset (by omega)⟩]
      exact ih (offset + 1) (by omega) (by omega)

/-- C6 (amended): whenever some offset below `u64::MAX` meets the required
level, `hash_cash` returns the smallest such offset: the returned offset
satisfies the bound and every smaller offset fails it.  (Without such an
offset the loop exhausts and returns `u64::MAX` itself, which need not
satisfy the bound — see the counterexample for `level > 160`.) -/
theorem hash_cash_minimal (sha1 : String → List ℕ) (omega : String)
    (level : ℕ)
    (h : ∃ o, o < u64max ∧ level ≤ get_hash_cash_level sha1 omega o) :
    level ≤ get_hash_cash_level sha1 omega (hash_cash sha1 omega level) ∧
    ∀ o, o < hash_cash sha1 omega level →
      get_hash_cash_level sha1 omega o < level := by
  classical
  obtain ⟨o₀, ho₀, hP₀⟩ := h
  have hex : ∃ o, level ≤ get_hash_cash_level sha1 omega o := ⟨o₀, hP₀⟩
  set m := Nat.find hex with hm_def
  have hPm : level ≤ get_hash_cash_level sha1 omega m := Nat.find_spec hex
  have hmin : ∀ o, o < m → get_hash_cash_level sha1 omega o < level := by
    intro o ho
    have := Nat.find_min hex ho
    omega
  have hmlt : m < u64max := by
    have : m ≤ o₀ := Nat.find_min' hex hP₀
    omega
  have hrun : hash_cash sha1 omega level = m := by
    unfold hash_cash
    exact hashCashLoop_finds _ level m hPm hmin hmlt u64max 0 (by omega)
      (by omega)
  rw [hrun]
  exact ⟨hPm, hmin⟩

/-- Witness for C6 at a concrete input: a constant digest whose first byte is
1 (level 7), and required level 7; offset 0 already satisfies the bound. -/
theorem hash_cash_minimal_w :
    7 ≤ get_hash_cash_level (fun _ => 1 :: List.replicate 19 0) ""
        (hash_cash (fun _ => 1 :: List.replicate 19 0) "" 7) ∧
    ∀ o, o < hash_cash (fun _ => 1 :: List.replicate 19 0) "" 7 →
      get_hash_cash_level (fun _ => 1 :: List.replicate 19 0) "" o < 7 :=
  hash_cash_minimal (fun _ => 1 :: List.replicate 19 0) "" 7
    ⟨0, by norm_num [u64max], by decide⟩

/-- C6 counterexample: at level 161 no offset can ever satisfy the bound (a
SHA-1 digest has 20 bytes, hence at most 160 leading zero bits — here the
all-zero digest attains exactly 160), so the search exhausts and returns
`u64::MAX = 2^64 - 1`, an offset that does not satisfy the bound, contrary to
the claim that the returned offset always does. -/
theorem hash_cash_cex :
    hash_cash (fun _ => List.replicate 20 0) "" 161 = 2 ^ 64 - 1 ∧
    get_hash_cash_level (fun _ => List.replicate 20 0) "" (2 ^ 64 - 1) < 161 := by
  constructor
  · have hall : ∀ o, get_hash_cash_level (fun _ => List.replicate 20 0) "" o
        < 161 :=
      fun _ => (by decide : levelOfDigest (List.replicate 20 0) < 161)
    unfold hash_cash
    rw [hashCashLoop_all_fail _ 161 hall u64max 0 (by omega)]
    simp [u64max]
  · exact (by decide : levelOfDigest (List.replicate 20 0) < 161)

/-- `BigUint::to_bytes_le` (num crate): the minimal little-endian base-256
digits, with `[0]` for zero. -/
def to_bytes_le (n : ℕ) : List ℕ :=
  if n = 0 then [0] else Nat.digits 256 n

/-- `biguint_to_array` from `algorithms.rs`: take the little-endian bytes,
append zeroes up to 64 bytes, and reverse.  `vec![0; 64 - len]` panics on
underflow and `copy_from_slice` into the `[0; 64]` destination panics unless
the padded vector is exactly 64 bytes; the `none` branch models that panic. -/
def biguint_to_array (n : ℕ) : Option (List ℕ) :=
  let v := to_bytes_le n ++ List.replicate (64 - (to_bytes_le n).length) 0
  if v.length = 64 then some v.reverse else none

/-- `array_to_biguint` from `algorithms.rs`: `BigUint::from_bytes_be`, the
big-endian base-256 interpretation of the 64 bytes. -/
def array_to_biguint (l : List ℕ) : ℕ :=
  l.foldl (fun acc b => acc * 256 + b) 0

theorem array_to_biguint_reverse (l : List ℕ) :
    array_to_biguint l.reverse = Nat.ofDigits 256 l := by
  unfold array_to_biguint
  rw [List.foldl_reverse]
  induction l with
  | nil => simp [Nat.ofDigits]
  | cons d rest ih =>
    simp only [List.foldr_cons, ih, Nat.ofDigits_cons]
    ring

theorem ofDigits_replicate_zero (k : ℕ) :
    Nat.ofDigits 256 (List.replicate k 0) = 0 := by
  induction k with
  | zero => simp [Nat.ofDigits]
  | succ k ih => simp [List.replicate_succ, Nat.ofDigits_cons, ih]

theorem to_bytes_le_length_le (n : ℕ) (h : n < 2 ^ 512) :
    (to_bytes_le n).length ≤ 64 := by
  unfold to_bytes_le
  by_cases h0 : n = 0
  · simp [h0]
  · rw [if_neg h0]
    by_contra hlen
    push_neg at hlen
    have h1 : (256 : ℕ) ^ (Nat.digits 256 n).length ≤ 256 * n :=
      Nat.base_pow_length_digits_le 256 n (by norm_num) h0
    have h2 : (256 : ℕ) ^ 65 ≤ 256 ^ (Nat.digits 256 n).length :=
      Nat.pow_le_pow_right (by norm_num) (by omega)
    have h3 : (256 : ℕ) ^ 65 = 256 * 256 ^ 64 := by ring
    have h6 : 256 * 256 ^ 64 ≤ 256 * n := by omega
    have h4 : (256 : ℕ) ^ 64 ≤ n :=
      Nat.le_of_mul_le_mul_left h6 (by norm_num : (0 : ℕ) < 256)
    have h5 : (256 : ℕ) ^ 64 = 2 ^ 512 := by norm_num
    omega

/-- C9: for every `n < 2^512`, `biguint_to_array n` succeeds with a 64-byte
big-endian zero-padded array and `array_to_biguint` recovers `n` from it. -/
theorem array_biguint_round_trip (n : ℕ) (h : n < 2 ^ 512) :
    ∃ arr, biguint_to_array n = some arr ∧ arr.length = 64 ∧
      array_to_biguint arr = n := by
  have hlen : (to_bytes_le n).length ≤ 64 := to_bytes_le_length_le n h
  have hv : (to_bytes_le n ++
      List.replicate (64 - (to_bytes_le n).length) 0).length = 64 := by
    simp only [List.length_append, List.length_replicate]
    omega
  refine ⟨(to_bytes_le n ++
      List.replicate (64 - (to_bytes_le n).length) 0).reverse, ?_, ?_, ?_⟩
  · unfold biguint_to_array
    simp only [hv, if_pos]
  · simp only [List.length_reverse, hv]
  · rw [array_to_biguint_reverse, Nat.ofDigits_append,
      ofDigits_replicate_zero, Nat.mul_zero, Nat.add_zero]
    unfold to_bytes_le
    by_cases h0 : n = 0
    · subst h0; simp [Nat.ofDigits]
    · rw [if_neg h0]
      exact Nat.ofDigits_digits 256 n

/-- Witness for C9 at `n = 3`: the round trip holds. -/
theorem array_biguint_round_trip_w :
    ∃ arr, biguint_to_array 3 = some arr ∧ arr.length = 64 ∧
      array_to_biguint arr = 3 :=
  array_biguint_round_trip 3 (by norm_num)

/-- `Connection` as consulted by `SocketConnectionManager::add_connection`
(only `con.borrow().address` is read).  Socket addresses are modelled as
naturals. -/
structure Connection where
  address : ℕ
deriving DecidableEq, Repr

/-- `SocketConnectionManager<T>` from `connectionmanager.rs`: the weak
back-reference `data` to the containing `Data` object (modelled by its
presence) and the address-keyed `connections` map (modelled as a total
function into `Option`).  The `resend_config` field is never consulted by the
operations modelled here and is omitted. -/
structure SocketConnectionManager (T : Type) where
  data : Option Unit
  connections : ℕ → Option (T × Connection)

/-- `SocketConnectionManager::set_data_ref`: store the back-reference. -/
def set_data_ref {T : Type} (m : SocketConnectionManager T) (w : Unit) :
    SocketConnectionManager T :=
  { m with data := some w }

/-- `SocketConnectionManager::add_connection` from `connectionmanager.rs`:
insert `(T::default(), con)` under `con.borrow().address` and return that
address.  The source then calls `self.data.as_ref().unwrap()` to spawn the
resend task; when `data` is `None` that `unwrap` panics, modelled by the
`none` result (the process aborts, so the earlier insertion is never
observable).  The spawned future itself touches no manager state modelled
here. -/
def add_connection {T : Type} [Inhabited T] (m : SocketConnectionManager T)
    (con : Connection) : Option (SocketConnectionManager T × ℕ) :=
  let key := con.address
  let m' : SocketConnectionManager T :=
    { m with connections := fun a =>
        if a = key then some (default, con) else m.connections a }
  match m.data with
  | none => none
  | some _ => some (m', key)

/-- C10: with no data back-reference (`set_data_ref` not yet called),
`add_connection` panics — modelled as `none`; once `set_data_ref` has been
called, it inserts `(T::default(), connection)` under the connection's socket
address, leaves other keys untouched, and returns that address as the key. -/
theorem add_connection_spec {T : Type} [Inhabited T]
    (m : SocketConnectionManager T) (con : Connection) :
    (add_connection m con =
      match m.data with
      | none => none
      | some _ => some
          ({ m with connections := fun a =>
              if a = con.address then some (default, con)
              else m.connections a },
            con.address)) ∧
    (∀ st key, add_connection (set_data_ref m ()) con = some (st, key) →
      key = con.address ∧ st.connections con.address = some (default, con) ∧
      ∀ a, a ≠ con.address → st.connections a = m.connections a) := by
  constructor
  · unfold add_connection
    cases m.data <;> rfl
  · intro st key hadd
    unfold add_connection set_data_ref at hadd
    simp only [Option.some.injEq, Prod.mk.injEq] at hadd
    obtain ⟨hst, hkey⟩ := hadd
    subst hst
    refine ⟨hkey.symm, by simp, ?_⟩
    intro a ha
    simp [ha]

end Tsproto
